import Mathlib

/- Verification of the PSX market-watch scraper (src/scrap.py).

   Shallow embedding conventions:
   * Python strings are Lean `String` / `List Char`.
   * Python floats are modeled exactly: `nan`, `inf`, `-inf`, and finite
     values as unreduced decimal fractions `num / den` where `den` is a
     power of ten produced by parsing.  IEEE rounding is abstracted away;
     every comparison the program performs is against the integers 0 and
     100000, where exact decimal arithmetic agrees with double arithmetic.
   * `str(float)` is modeled as the exact positional decimal rendering
     (Python switches to scientific notation for very large/small values;
     the rendering is only ever re-parsed by the program, never compared
     beyond the literal "0", so this difference is immaterial here).
   * Exceptions are modeled with `Option` / `Except`. -/

/-- Whitespace characters recognized by Python str.strip and float(). -/
def isPyWs (c : Char) : Bool :=
  c = ' ' || c = '\t' || c = '\n' || c = '\r' || c = Char.ofNat 11 || c = Char.ofNat 12

/-- Python str.lstrip (whitespace variant). -/
def lstripWs (s : List Char) : List Char := s.dropWhile isPyWs

/-- Python str.strip (whitespace variant). -/
def stripWs (s : List Char) : List Char :=
  ((s.dropWhile isPyWs).reverse.dropWhile isPyWs).reverse

/-- Python str.replace: replace every non-overlapping occurrence of `pat`,
    scanning left to right.  Fueled by the string length (each step consumes
    at least one character), keeping the definition structurally recursive. -/
def replaceGo (pat rep : List Char) : Nat → List Char → List Char
  | _, [] => []
  | 0, s => s
  | fuel + 1, c :: rest =>
    if !pat.isEmpty && pat.isPrefixOf (c :: rest) then
      rep ++ replaceGo pat rep fuel ((c :: rest).drop pat.length)
    else
      c :: replaceGo pat rep fuel rest

def pyReplace (s pat rep : List Char) : List Char := replaceGo pat rep s.length s

/-- Substring containment (Python `in`, JavaScript `includes`). -/
def listContains (s pat : List Char) : Bool :=
  (List.range (s.length + 1)).any (fun i => pat.isPrefixOf (s.drop i))

def strContains (s pat : String) : Bool := listContains s.toList pat.toList

/-- ASCII decimal digit test. -/
def isDig (c : Char) : Bool := decide (48 ≤ c.toNat ∧ c.toNat ≤ 57)

/-- ASCII lower-casing of a single character. -/
def lcChar (c : Char) : Char :=
  if 65 ≤ c.toNat ∧ c.toNat ≤ 90 then Char.ofNat (c.toNat + 32) else c

def digitChar (r : Nat) : Char :=
  if r = 0 then '0' else if r = 1 then '1' else if r = 2 then '2'
  else if r = 3 then '3' else if r = 4 then '4' else if r = 5 then '5'
  else if r = 6 then '6' else if r = 7 then '7' else if r = 8 then '8' else '9'

/-- Decimal digits of a natural number, most significant first (fueled). -/
def natDigitsGo : Nat → Nat → List Char → List Char
  | 0, _, acc => acc
  | fuel + 1, n, acc =>
    if n < 10 then digitChar (n % 10) :: acc
    else natDigitsGo fuel (n / 10) (digitChar (n % 10) :: acc)

def natDigits (n : Nat) : List Char := natDigitsGo (n + 1) n []

def digitsToNat (ds : List Char) : Nat :=
  ds.foldl (fun acc c => acc * 10 + (c.toNat - 48)) 0

/-- Exact value of a finite Python float as an unreduced decimal fraction
    `num / den`; every `den` built by the parser is a positive power of ten. -/
structure DecVal where
  num : Int
  den : Nat
deriving DecidableEq, Repr

/-- A Python float: NaN, the two infinities, or a finite value. -/
inductive PyFloat where
  | finite : DecVal → PyFloat
  | nan : PyFloat
  | inf : PyFloat
  | ninf : PyFloat
deriving DecidableEq, Repr

def decNeg (q : DecVal) : DecVal := ⟨-q.num, q.den⟩

/-- Python comparison `v <= c` for an integer constant `c` (false for NaN). -/
def pyLeConst (v : PyFloat) (c : Int) : Bool :=
  match v with
  | .finite q => decide (q.num ≤ c * (q.den : Int))
  | .nan => false
  | .inf => false
  | .ninf => true

/-- Python comparison `v > c` for an integer constant `c` (false for NaN). -/
def pyGtConst (v : PyFloat) (c : Int) : Bool :=
  match v with
  | .finite q => decide (c * (q.den : Int) < q.num)
  | .nan => false
  | .inf => true
  | .ninf => false

/-- Greedy continuation of a digit run, allowing single underscores between
    digits (Python numeric literal grammar accepted by float()). -/
def digSpanCont : List Char → List Char × List Char
  | [] => ([], [])
  | c :: rest =>
    if isDig c then
      let p := digSpanCont rest
      (c :: p.1, p.2)
    else if c = '_' then
      match rest with
      | [] => ([], [c])
      | c2 :: rest2 =>
        if isDig c2 then
          let p := digSpanCont rest2
          (c2 :: p.1, p.2)
        else ([], c :: c2 :: rest2)
    else ([], c :: rest)

/-- A `digitpart`: one digit followed by `(underscore? digit)*`. -/
def takeDigitPart : List Char → Option (List Char × List Char)
  | [] => none
  | c :: rest =>
    if isDig c then
      let p := digSpanCont rest
      some (c :: p.1, p.2)
    else none

def parseExpMag (cs : List Char) : Option Int :=
  match takeDigitPart cs with
  | some (ds, []) => some (digitsToNat ds : Int)
  | _ => none

def parseExpSigned (cs : List Char) : Option Int :=
  match cs with
  | '+' :: r => parseExpMag r
  | '-' :: r => (parseExpMag r).map (fun e => -e)
  | r => parseExpMag r

/-- Exponent suffix: empty means exponent 0; otherwise `e`/`E` then a
    signed digitpart consuming the whole remainder. -/
def parseExpPart (cs : List Char) : Option Int :=
  match cs with
  | [] => some 0
  | 'e' :: rest => parseExpSigned rest
  | 'E' :: rest => parseExpSigned rest
  | _ => none

/-- Value of integer digits `ip`, fraction digits `fp` and exponent `e`. -/
def ratOfParts (ip fp : List Char) (e : Int) : DecVal :=
  let n : Nat := digitsToNat (ip ++ fp)
  match e with
  | Int.ofNat m => ⟨(n : Int) * (10 : Int) ^ m, 10 ^ fp.length⟩
  | Int.negSucc m => ⟨(n : Int), 10 ^ fp.length * 10 ^ (m + 1)⟩

/-- Decimal core of float(): `[digitpart] [. [digitpart]] [exponent]`,
    requiring at least one digit before the optional exponent. -/
def parseDecCore (cs : List Char) : Option DecVal :=
  match takeDigitPart cs with
  | some (ip, rest) =>
    match rest with
    | '.' :: r2 =>
      match takeDigitPart r2 with
      | some (fp, r3) => (parseExpPart r3).map (fun e => ratOfParts ip fp e)
      | none => (parseExpPart r2).map (fun e => ratOfParts ip [] e)
    | _ => (parseExpPart rest).map (fun e => ratOfParts ip [] e)
  | none =>
    match cs with
    | '.' :: r2 =>
      match takeDigitPart r2 with
      | some (fp, r3) => (parseExpPart r3).map (fun e => ratOfParts [] fp e)
      | none => none
    | _ => none

/-- Sign-stripped part of float(): the case-insensitive words inf, infinity
    and nan, or a decimal literal. -/
def pyParseUnsigned (cs : List Char) (neg : Bool) : Option PyFloat :=
  let low := cs.map lcChar
  if low = "inf".toList || low = "infinity".toList then
    some (if neg then .ninf else .inf)
  else if low = "nan".toList then some .nan
  else
    match parseDecCore cs with
    | some q => some (.finite (if neg then decNeg q else q))
    | none => none

/-- Python float(string): strips whitespace, handles an optional sign, then
    parses the remainder; `none` models a raised ValueError. -/
def pyFloatParse (s : String) : Option PyFloat :=
  match stripWs s.toList with
  | [] => none
  | c :: rest =>
    if c = '+' then pyParseUnsigned rest false
    else if c = '-' then pyParseUnsigned rest true
    else pyParseUnsigned (c :: rest) false

/-- Smallest k with den dividing 10^k (exists whenever den is of the form
    2^a * 5^b, which holds for every denominator the parser produces). -/
def pow10Exp (den : Nat) : Option Nat :=
  (List.range (den + 1)).find? (fun k => 10 ^ k % den == 0)

/-- Fraction digits, left-padded with zeros to width k and with trailing
    zeros removed (at least one digit remains, mirroring Python's trailing
    ".0" on integral floats). -/
def fracPad (k r : Nat) : List Char :=
  if k = 0 then ['0']
  else
    let ds := List.replicate (k - (natDigits r).length) '0' ++ natDigits r
    let t := (ds.reverse.dropWhile (fun c => c = '0')).reverse
    if t.isEmpty then ['0'] else t

/-- Integer and fraction digits of the magnitude of a finite float. -/
def ratRenderParts (q : DecVal) : List Char × List Char :=
  match pow10Exp q.den with
  | some k =>
    let m := q.num.natAbs * (10 ^ k / q.den)
    (natDigits (m / 10 ^ k), fracPad k (m % 10 ^ k))
  | none => (natDigits (q.num.natAbs / q.den), ['0'])

/-- Positional decimal rendering of a finite float. -/
def ratRender (q : DecVal) : List Char :=
  (if q.num < 0 then ['-'] else []) ++ (ratRenderParts q).1 ++ '.' :: (ratRenderParts q).2

/-- Python str() of a float. -/
def pyFloatStr : PyFloat → String
  | .finite q => String.mk (ratRender q)
  | .nan => "nan"
  | .inf => "inf"
  | .ninf => "-inf"

/-- The replacement chain of clean_numeric_value (src/scrap.py lines
    292-296): strip, then drop separators/markers, then collapse dashes. -/
def pyCleanChain (value : String) : List Char :=
  let c0 := stripWs value.toList
  let c1 := pyReplace c0 [','] []
  let c2 := pyReplace c1 [' '] []
  let c3 := pyReplace c2 ['%'] []
  let c4 := pyReplace c3 ['('] []
  let c5 := pyReplace c4 [')'] []
  let c6 := pyReplace c5 ['$'] []
  let c7 := pyReplace c6 ['R', 's', '.'] []
  let c8 := pyReplace c7 ['P', 'K', 'R'] []
  let c9 := pyReplace c8 [Char.ofNat 8360] []
  let c10 := pyReplace c9 ['-', '-'] ['0']
  pyReplace c10 ['-', '-', '-'] ['0']

/-- The negative-sign fixup of clean_numeric_value (lines 299-300):
    a leading minus keeps its sign and the rest is left-stripped. -/
def negAdjust (cs : List Char) : List Char :=
  match cs with
  | '-' :: rest => '-' :: lstripWs rest
  | _ => cs

/-- clean_numeric_value (src/scrap.py lines 286-309). -/
def clean_numeric_value (value : String) : String :=
  if value = "" || ["N/A", "-", "", " ", "NAN", "NULL", "N/S", "N.S", "n/s"].contains value then
    "0"
  else
    let cleaned := negAdjust (pyCleanChain value)
    if cleaned.isEmpty || cleaned = ['-'] then "0"
    else
      match pyFloatParse (String.mk cleaned) with
      | some v => pyFloatStr v
      | none => "0"

/-- One raw scraped row; all fields opaque text.  Records are structures,
    so the KeyError branch of the Python dict access cannot arise. -/
structure RawRecord where
  symbol : String
  sector : String
  listed_in : String
  ldcp : String
  open_ : String
  high : String
  low : String
  current : String
  change : String
  change_percent : String
  volume : String
deriving DecidableEq, Repr

/-- validate_stock_data (src/scrap.py lines 311-323).  The float()
    conversion failing is the except branch, returning false. -/
def validate_stock_data (stock : RawRecord) : Bool :=
  if stock.symbol = "" || stock.symbol.length > 20 then false
  else
    match pyFloatParse (clean_numeric_value stock.current) with
    | some v => if pyLeConst v 0 || pyGtConst v 100000 then false else true
    | none => false

/-- One row of the psx_data table.  `ts` abstracts the run's
    scrape_timestamp (only ever compared for equality); decimal columns
    hold the float values passed to the insert; `open` is a Lean keyword,
    hence the field name `open_`. -/
structure StoredRow where
  ts : Nat
  symbol : String
  sector : String
  listed_in : String
  ldcp : PyFloat
  open_ : PyFloat
  high : PyFloat
  low : PyFloat
  current : PyFloat
  change : PyFloat
  change_percent : PyFloat
  volume : Int
deriving DecidableEq, Repr

/-- `float(clean_numeric_value(s)) if clean_numeric_value(s) != '0' else 0`
    — the value placed in a decimal column (none models a raised error). -/
def floatField (s : String) : Option PyFloat :=
  if clean_numeric_value s = "0" then some (.finite ⟨0, 1⟩)
  else pyFloatParse (clean_numeric_value s)

/-- `int(float(clean_numeric_value(s))) if ... != '0' else 0` — the volume
    column.  int() truncates toward zero and raises on NaN and infinities. -/
def intField (s : String) : Option Int :=
  if clean_numeric_value s = "0" then some 0
  else
    match pyFloatParse (clean_numeric_value s) with
    | some (.finite q) => some (q.num.tdiv (q.den : Int))
    | some _ => none
    | none => none

/-- The row_data tuple of save_to_postgresql (lines 352-365); none models
    the per-row exception caught at lines 370-372 (logged, then continue). -/
def buildRow (ts : Nat) (r : RawRecord) : Option StoredRow :=
  (floatField r.ldcp).bind fun ldcp =>
  (floatField r.open_).bind fun op =>
  (floatField r.high).bind fun hi =>
  (floatField r.low).bind fun lo =>
  (floatField r.current).bind fun cur =>
  (floatField r.change).bind fun chg =>
  (floatField r.change_percent).bind fun chgp =>
  (intField r.volume).map fun vol =>
  ⟨ts, r.symbol, r.sector, r.listed_in, ldcp, op, hi, lo, cur, chg, chgp, vol⟩

/-- Does the table already hold a row with this (scrape_timestamp, symbol)
    key?  Within one transaction, ON CONFLICT sees both committed rows and
    rows inserted earlier in the same batch. -/
def hasKey (rows : List StoredRow) (row : StoredRow) : Bool :=
  rows.any (fun x => x.ts == row.ts && x.symbol == row.symbol)

/-- One `INSERT ... ON CONFLICT (scrape_timestamp, symbol) DO NOTHING`
    against committed rows `db` plus the batch's pending rows `pend`. -/
def insertStep (db pend : List StoredRow) (row : StoredRow) : List StoredRow :=
  if hasKey (db ++ pend) row then pend else pend ++ [row]

/-- The insert loop of save_to_postgresql (lines 349-372): validate, build
    the row (skipping per-row failures), insert with conflict-ignore. -/
def insertLoop (ts : Nat) (db : List StoredRow) (pend : List StoredRow) :
    List RawRecord → List StoredRow
  | [] => pend
  | r :: rs =>
    if validate_stock_data r then
      match buildRow ts r with
      | some row => insertLoop ts db (insertStep db pend row) rs
      | none => insertLoop ts db pend rs
    else insertLoop ts db pend rs

/-- saved_count: the code increments it for every record whose row tuple
    was built and executed, whether or not the key conflicted. -/
def savedCount (ts : Nat) (records : List RawRecord) : Nat :=
  (records.filter (fun r => validate_stock_data r && (buildRow ts r).isSome)).length

/-- Failure-injection points for the database collaborator: the connection
    (line 337), the commit (line 374) and the summary query (lines 379-394).
    A false flag means that call raises. -/
structure PgEnv where
  connectOk : Bool
  commitOk : Bool
  summaryOk : Bool
deriving DecidableEq, Repr

/-- save_to_postgresql (lines 325-408) over committed table state `db`:
    returns the Python return value and the committed rows afterwards.
    An exception anywhere lands in the outer except (lines 398-402):
    rollback (pending rows discarded) and return False.  The summary query
    runs after commit, so its failure cannot undo the commit. -/
def save_to_postgresql (env : PgEnv) (db : List StoredRow) (ts : Nat)
    (records : List RawRecord) : Bool × List StoredRow :=
  if records.isEmpty then (false, db)
  else if !env.connectOk then (false, db)
  else
    let pend := insertLoop ts db [] records
    if !env.commitOk then (false, db)
    else
      let db2 := db ++ pend
      if savedCount ts records > 0 && !env.summaryOk then (false, db2)
      else (true, db2)

/-- A rendering session as the extraction chain sees it:
    `scriptResult` is the outcome of the primary strategy's in-page script
    on the selected table's body rows (error = anything thrown between the
    page load and the script, lines 140-215); `manualTable` is the table
    found by the secondary strategy, each row either its cell texts or an
    error thrown while accessing it (lines 235-277). -/
structure Driver where
  scriptResult : Except Unit (List (List String))
  manualTable : Except Unit (List (Except Unit (List String)))

/-- Cell text selection of the in-page script: `cells[i]?.innerText.trim()
    || dflt` (missing cell, or present but blank, falls back to dflt). -/
def jsText (cells : List String) (i : Nat) (dflt : String) : String :=
  match cells.get? i with
  | some t =>
    let s := String.mk (stripWs t.toList)
    if s = "" then dflt else s
  | none => dflt

/-- Cell text selection of the manual strategy:
    `cells[i].text.strip() if len(cells) > i else dflt` (a present but
    blank cell stays blank). -/
def pyText (cells : List String) (i : Nat) (dflt : String) : String :=
  match cells.get? i with
  | some t => String.mk (stripWs t.toList)
  | none => dflt

/-- The symbol block-list of the in-page script (lines 186-190). -/
def jsSkip (symbol : String) : Bool :=
  symbol = "" || symbol.length > 20 ||
  strContains symbol "Symbol" || strContains symbol "Last" ||
  symbol = "PSX" || symbol = "KSE-100" ||
  strContains symbol "Open" || strContains symbol "High" ||
  strContains symbol "Low" || strContains symbol "Volume"

/-- The symbol block-list of the manual strategy (lines 251-253). -/
def pySkip (symbol : String) : Bool :=
  symbol = "" || symbol.length > 20 ||
  (["Symbol", "Last", "Open", "High", "Low", "Current", "Change", "Volume"].any
    (fun k => strContains symbol k)) ||
  strContains symbol "PSX" || strContains symbol "KSE"

/-- Per-row processing of the in-page script (lines 180-210). -/
def jsProcessRow (cells : List String) : Option RawRecord :=
  if cells.length ≥ 9 then
    let symbol := jsText cells 0 ""
    if jsSkip symbol then none
    else
      some ⟨symbol, jsText cells 1 "", jsText cells 2 "", jsText cells 3 "0",
        jsText cells 4 "0", jsText cells 5 "0", jsText cells 6 "0",
        jsText cells 7 "0", jsText cells 8 "0", jsText cells 9 "0",
        jsText cells 10 "0"⟩
  else none

/-- Per-row processing of the manual strategy (lines 242-270). -/
def pyProcessRow (cells : List String) : Option RawRecord :=
  if cells.length < 9 then none
  else
    let symbol := pyText cells 0 ""
    if pySkip symbol then none
    else
      some ⟨symbol, pyText cells 1 "", pyText cells 2 "", pyText cells 3 "0",
        pyText cells 4 "0", pyText cells 5 "0", pyText cells 6 "0",
        pyText cells 7 "0", pyText cells 8 "0", pyText cells 9 "0",
        pyText cells 10 "0"⟩

/-- extract_manual_complete (lines 228-284): an error locating the table
    yields []; a row that throws during field access is skipped. -/
def extract_manual_complete (d : Driver) : List RawRecord :=
  match d.manualTable with
  | .error _ => []
  | .ok rows =>
    rows.filterMap (fun r =>
      match r with
      | .error _ => none
      | .ok cells => pyProcessRow cells)

/-- extract_correct_psx_data (lines 134-226): primary in-page script;
    on any exception, or an empty result, fall through to the manual
    strategy. -/
def extract_correct_psx_data (d : Driver) : List RawRecord :=
  match d.scriptResult with
  | .error _ => extract_manual_complete d
  | .ok rows =>
    let raw := rows.filterMap jsProcessRow
    if raw.isEmpty then extract_manual_complete d else raw

/-- A wall-clock instant for the scrape-interval computation: minutes since
    a fixed hour-aligned epoch, plus the sub-minute part in microseconds
    (seconds and microseconds folded together; the invariant
    subMin < 60000000 says the sub-minute part is under one minute). -/
structure PKTime where
  totalMin : Nat
  subMin : Nat
deriving DecidableEq, Repr

def toMicros (t : PKTime) : Nat := t.totalMin * 60000000 + t.subMin

def SCRAPE_INTERVAL_MINUTES : Nat := 5

/-- get_next_scrape_time (lines 435-447): round up to the next multiple of
    the interval from the top of the hour (now.minute is totalMin % 60),
    forcing a full interval on an exact boundary, then truncate seconds
    and microseconds. -/
def get_next_scrape_time (now : PKTime) : PKTime :=
  let add0 := (SCRAPE_INTERVAL_MINUTES - (now.totalMin % 60) % SCRAPE_INTERVAL_MINUTES)
      % SCRAPE_INTERVAL_MINUTES
  let add := if add0 = 0 then SCRAPE_INTERVAL_MINUTES else add0
  ⟨now.totalMin + add, 0⟩

def PSX_MARKET_OPEN : String := "09:30"

/-- str.split on a single separator character. -/
def splitChar (sep : Char) : List Char → List (List Char)
  | [] => [[]]
  | c :: rest =>
    let ps := splitChar sep rest
    if c = sep then [] :: ps
    else
      match ps with
      | p :: ps2 => (c :: p) :: ps2
      | [] => [[c]]

/-- `map(int, PSX_MARKET_OPEN.split(':'))` (line 542); the configured
    strings hold plain digits, where int() is digitsToNat. -/
def parseHM (s : String) : Nat × Nat :=
  match (splitChar ':' s.toList).map digitsToNat with
  | [h, m] => (h, m)
  | _ => (0, 0)

/-- A civil timestamp for the scheduler: days since a Monday (so weekday,
    Python convention Monday = 0, is day % 7), minute of day, and the
    sub-minute part in microseconds. -/
structure PKStamp where
  day : Nat
  minute : Nat
  subMin : Nat
deriving DecidableEq, Repr

/-- The weekend-skipping while loop of run_and_schedule (lines 538-539),
    fueled: the loop body can run at most twice (Saturday then Sunday)
    before the weekday test fails, so fuel 2 is exact. -/
def skipWeekendGo : Nat → Nat → Nat
  | 0, d => d
  | fuel + 1, d => if d % 7 ≥ 5 then skipWeekendGo fuel (d + 1) else d

def skipWeekend (d : Nat) : Nat := skipWeekendGo 2 d

/-- The market-closed branch of run_and_schedule (lines 529-549): start
    from tomorrow, skip the weekend, set the configured open time, zero
    seconds and microseconds. -/
def nextMarketOpenAfterClose (now : PKStamp) : PKStamp :=
  let t := skipWeekend (now.day + 1)
  let hm := parseHM PSX_MARKET_OPEN
  ⟨t, hm.1 * 60 + hm.2, 0⟩

/-- C3: get_next_scrape_time lands on a multiple of the 5-minute interval
    from the top of the hour with zero seconds and sub-seconds, is strictly
    after the current instant, and from an exact boundary it moves exactly
    one full interval forward. -/
theorem get_next_scrape_time_spec (now : PKTime) (h : now.subMin < 60000000) :
    (get_next_scrape_time now).totalMin % 5 = 0
    ∧ (get_next_scrape_time now).subMin = 0
    ∧ toMicros now < toMicros (get_next_scrape_time now)
    ∧ (now.totalMin % 5 = 0 → now.subMin = 0 →
        (get_next_scrape_time now).totalMin = now.totalMin + 5) := by
  obtain ⟨t, s⟩ := now
  have hdef : get_next_scrape_time ⟨t, s⟩ =
      ⟨t + (if (5 - t % 60 % 5) % 5 = 0 then 5 else (5 - t % 60 % 5) % 5), 0⟩ := rfl
  rw [hdef]
  simp only [toMicros] at h ⊢
  refine ⟨?_, trivial, ?_, fun h1 _ => ?_⟩ <;> split <;> omega

theorem get_next_scrape_time_spec_witness :
    (0 : Nat) < 60000000
    ∧ ((get_next_scrape_time ⟨65, 0⟩).totalMin % 5 = 0
        ∧ (get_next_scrape_time ⟨65, 0⟩).subMin = 0
        ∧ toMicros ⟨65, 0⟩ < toMicros (get_next_scrape_time ⟨65, 0⟩)
        ∧ ((65 : Nat) % 5 = 0 → (0 : Nat) = 0 →
            (get_next_scrape_time ⟨65, 0⟩).totalMin = 65 + 5)) :=
  ⟨by decide, get_next_scrape_time_spec ⟨65, 0⟩ (by decide)⟩

/-- C2 counterexample: at day 0 (a Monday, weekday 0 < 5) at 08:00, before
    the 09:30 open, the scheduler's closed branch computes day 1 at 09:30,
    not today's open time, refuting the claim that a business-day morning
    before open yields today's open. -/
theorem nextMarketOpen_counterexample :
    (0 : Nat) % 7 < 5 ∧ (480 : Nat) < 570
    ∧ nextMarketOpenAfterClose ⟨0, 480, 0⟩ = ⟨1, 570, 0⟩
    ∧ (nextMarketOpenAfterClose ⟨0, 480, 0⟩).day ≠ 0 := by
  refine ⟨by decide, by decide, by decide, by decide⟩

/-- C2 amended: the closed branch always advances to a strictly later day:
    the first business day after today (weekday < 5), at the configured
    09:30 open with zero seconds, even when today's window has not yet
    started. -/
theorem nextMarketOpen_spec (now : PKStamp) :
    (nextMarketOpenAfterClose now).day % 7 < 5
    ∧ now.day < (nextMarketOpenAfterClose now).day
    ∧ (nextMarketOpenAfterClose now).minute = 570
    ∧ (nextMarketOpenAfterClose now).subMin = 0 := by
  obtain ⟨d, m, s⟩ := now
  have hsw : ∀ x : Nat, skipWeekend x % 7 < 5 ∧ x ≤ skipWeekend x := by
    intro x
    simp only [skipWeekend, skipWeekendGo]
    split
    · split <;> omega
    · omega
  have h1 : (nextMarketOpenAfterClose ⟨d, m, s⟩).day = skipWeekend (d + 1) := rfl
  have h2 : (nextMarketOpenAfterClose ⟨d, m, s⟩).minute = 570 := rfl
  have h3 : (nextMarketOpenAfterClose ⟨d, m, s⟩).subMin = 0 := rfl
  rw [h1, h2, h3]
  dsimp only
  have := hsw (d + 1)
  exact ⟨this.1, by omega, rfl, rfl⟩

/-- C8: a connection or commit failure makes save_to_postgresql return
    False and leaves the committed table exactly as before the call (the
    run's pending writes are rolled back, nothing partial is kept). -/
theorem save_failure_rolls_back (env : PgEnv) (db : List StoredRow) (ts : Nat)
    (records : List RawRecord) (h : env.connectOk = false ∨ env.commitOk = false) :
    (save_to_postgresql env db ts records).1 = false
    ∧ (save_to_postgresql env db ts records).2 = db := by
  obtain ⟨c, k, s⟩ := env
  rcases h with h | h <;> subst h <;> simp [save_to_postgresql]

theorem save_failure_rolls_back_witness :
    ((⟨false, true, true⟩ : PgEnv).connectOk = false ∨ (⟨false, true, true⟩ : PgEnv).commitOk = false)
    ∧ ((save_to_postgresql ⟨false, true, true⟩ [] 0 []).1 = false
        ∧ (save_to_postgresql ⟨false, true, true⟩ [] 0 []).2 = []) :=
  ⟨Or.inl rfl, save_failure_rolls_back ⟨false, true, true⟩ [] 0 [] (Or.inl rfl)⟩

/-- C4: the extraction chain never surfaces an exception and never returns
    a non-list: a thrown primary strategy or an empty primary result falls
    through to the secondary strategy, a non-empty primary result is
    returned as is, and a failed secondary strategy yields the empty list. -/
theorem extraction_chain_spec (d : Driver) :
    (∀ e, d.scriptResult = Except.error e →
      extract_correct_psx_data d = extract_manual_complete d)
    ∧ (∀ rows, d.scriptResult = Except.ok rows → rows.filterMap jsProcessRow = [] →
      extract_correct_psx_data d = extract_manual_complete d)
    ∧ (∀ rows, d.scriptResult = Except.ok rows → rows.filterMap jsProcessRow ≠ [] →
      extract_correct_psx_data d = rows.filterMap jsProcessRow)
    ∧ (∀ e, d.manualTable = Except.error e → extract_manual_complete d = []) := by
  obtain ⟨sr, mt⟩ := d
  refine ⟨?_, ?_, ?_, ?_⟩
  · rintro e h
    subst h
    rfl
  · rintro rows h hemp
    subst h
    simp [extract_correct_psx_data, hemp]
  · rintro rows h hne
    subst h
    simp only [extract_correct_psx_data]
    rw [if_neg]
    simp [List.isEmpty_iff, hne]
  · rintro e h
    subst h
    rfl

theorem extraction_chain_spec_witness :
    extract_correct_psx_data ⟨Except.error (), Except.error ()⟩
      = extract_manual_complete ⟨Except.error (), Except.error ()⟩
    ∧ extract_manual_complete ⟨Except.error (), Except.error ()⟩ = [] :=
  ⟨(extraction_chain_spec ⟨Except.error (), Except.error ()⟩).1 () rfl,
   (extraction_chain_spec ⟨Except.error (), Except.error ()⟩).2.2.2 () rfl⟩

/-- C5 counterexample: a row whose first cell is XPSX is kept by the
    primary script (XPSX is not equal to PSX and contains no blocked
    token) but skipped by the secondary strategy (its check is
    containment of PSX), so the two strategies do not filter rows
    identically. -/
theorem strategy_filters_differ :
    jsProcessRow ["XPSX", "Tech", "KSE100", "1", "1", "1", "1", "5", "0", "0", "0"] ≠ none
    ∧ pyProcessRow ["XPSX", "Tech", "KSE100", "1", "1", "1", "1", "5", "0", "0", "0"] = none
    ∧ jsSkip "XPSX" = false ∧ pySkip "XPSX" = true := by
  refine ⟨by decide, by decide, by decide, by decide⟩

theorem jsText_zero_eq (cells : List String) : jsText cells 0 "" = pyText cells 0 "" := by
  simp only [jsText, pyText]
  cases cells.get? 0 with
  | none => rfl
  | some t =>
    dsimp only
    split
    · next hh => exact hh.symm
    · rfl

theorem jsSkip_imp_pySkip (s : String) (h : jsSkip s = true) : pySkip s = true := by
  simp only [jsSkip, Bool.or_eq_true, decide_eq_true_eq] at h
  rcases h with ((((((((h | h) | h) | h) | h) | h) | h) | h) | h) | h
  · subst h
    decide
  · simp only [pySkip, Bool.or_eq_true, decide_eq_true_eq, List.any_eq_true]
    exact Or.inl (Or.inl (Or.inl (Or.inr h)))
  · simp only [pySkip, Bool.or_eq_true, decide_eq_true_eq, List.any_eq_true]
    exact Or.inl (Or.inl (Or.inr ⟨"Symbol", by simp, h⟩))
  · simp only [pySkip, Bool.or_eq_true, decide_eq_true_eq, List.any_eq_true]
    exact Or.inl (Or.inl (Or.inr ⟨"Last", by simp, h⟩))
  · subst h
    decide
  · subst h
    decide
  · simp only [pySkip, Bool.or_eq_true, decide_eq_true_eq, List.any_eq_true]
    exact Or.inl (Or.inl (Or.inr ⟨"Open", by simp, h⟩))
  · simp only [pySkip, Bool.or_eq_true, decide_eq_true_eq, List.any_eq_true]
    exact Or.inl (Or.inl (Or.inr ⟨"High", by simp, h⟩))
  · simp only [pySkip, Bool.or_eq_true, decide_eq_true_eq, List.any_eq_true]
    exact Or.inl (Or.inl (Or.inr ⟨"Low", by simp, h⟩))
  · simp only [pySkip, Bool.or_eq_true, decide_eq_true_eq, List.any_eq_true]
    exact Or.inl (Or.inl (Or.inr ⟨"Volume", by simp, h⟩))

/-- C5 amended: both strategies require at least 9 cells, and the
    secondary strategy's symbol block-list is strictly wider than the
    primary's, so every row the secondary keeps the primary also keeps
    (but not conversely, per the counterexample). -/
theorem secondary_filter_stricter (cells : List String)
    (h : (pyProcessRow cells).isSome = true) :
    (jsProcessRow cells).isSome = true := by
  simp only [pyProcessRow] at h
  by_cases hlen : cells.length < 9
  · rw [if_pos hlen] at h
    simp at h
  · rw [if_neg hlen] at h
    by_cases hskip : pySkip (pyText cells 0 "") = true
    · rw [if_pos hskip] at h
      simp at h
    · simp only [jsProcessRow]
      rw [if_pos (by omega : cells.length ≥ 9), jsText_zero_eq]
      rw [if_neg (fun hj => hskip (jsSkip_imp_pySkip _ hj))]
      simp

theorem secondary_filter_stricter_witness :
    (pyProcessRow ["ABC", "s", "l", "1", "1", "1", "1", "5", "0"]).isSome = true
    ∧ (jsProcessRow ["ABC", "s", "l", "1", "1", "1", "1", "5", "0"]).isSome = true :=
  ⟨by decide, secondary_filter_stricter ["ABC", "s", "l", "1", "1", "1", "1", "5", "0"] (by decide)⟩

theorem clean_eq_zero_of_parse_none (s : String)
    (h : pyFloatParse (String.mk (negAdjust (pyCleanChain s))) = none) :
    clean_numeric_value s = "0" := by
  simp only [clean_numeric_value]
  split
  · rfl
  · split
    · rfl
    · simp [h]

/-- C7: clean_numeric_value is total (a Lean function), returns the zero
    string on each sentinel token, and returns the zero string whenever the
    cleaned remainder fails to parse as a float (the except branch). -/
theorem clean_numeric_value_spec :
    (clean_numeric_value "" = "0" ∧ clean_numeric_value "-" = "0"
      ∧ clean_numeric_value "N/A" = "0" ∧ clean_numeric_value "NAN" = "0"
      ∧ clean_numeric_value "NULL" = "0" ∧ clean_numeric_value "N/S" = "0"
      ∧ clean_numeric_value " " = "0")
    ∧ (∀ s, pyFloatParse (String.mk (negAdjust (pyCleanChain s))) = none →
        clean_numeric_value s = "0") :=
  ⟨⟨by decide, by decide, by decide, by decide, by decide, by decide, by decide⟩,
   clean_eq_zero_of_parse_none⟩

theorem clean_numeric_value_spec_witness :
    pyFloatParse (String.mk (negAdjust (pyCleanChain "abc"))) = none
    ∧ clean_numeric_value "abc" = "0" :=
  ⟨by decide, clean_numeric_value_spec.2 "abc" (by decide)⟩

/-- C6 counterexample: the input nan is not a sentinel (the list is
    case-sensitive there), cleans to the float string nan, and NaN
    compares false against both bounds, so validate_stock_data accepts a
    record whose cleaned current value is not a positive number at all. -/
theorem validate_accepts_nan_counterexample :
    validate_stock_data ⟨"ABC", "", "", "0", "0", "0", "0", "nan", "0", "0", "0"⟩ = true
    ∧ pyFloatParse (clean_numeric_value "nan") = some PyFloat.nan
    ∧ pyGtConst PyFloat.nan 0 = false := by
  refine ⟨by decide, by decide, by decide⟩

/-- C6 amended: validate_stock_data accepts exactly when the symbol is
    non-empty and at most 20 characters and the cleaned current value is
    either a finite float in (0, 100000] or NaN (both bound checks compare
    false on NaN); in particular it rejects current 0 and accepts
    current 150.25. -/
theorem validate_stock_data_spec :
    (∀ stock : RawRecord,
      validate_stock_data stock = true ↔
        (stock.symbol ≠ "" ∧ stock.symbol.length ≤ 20
          ∧ ((∃ q : DecVal,
                pyFloatParse (clean_numeric_value stock.current) = some (PyFloat.finite q)
                ∧ 0 < q.num ∧ q.num ≤ 100000 * (q.den : Int))
              ∨ pyFloatParse (clean_numeric_value stock.current) = some PyFloat.nan)))
    ∧ validate_stock_data ⟨"ABC", "", "", "0", "0", "0", "0", "0", "0", "0", "0"⟩ = false
    ∧ validate_stock_data ⟨"ABC", "", "", "0", "0", "0", "0", "150.25", "0", "0", "0"⟩ = true := by
  refine ⟨?_, by decide, by decide⟩
  intro stock
  simp only [validate_stock_data]
  by_cases h1 : stock.symbol = ""
  · rw [if_pos (by simp [h1])]
    simp [h1]
  · by_cases h2 : stock.symbol.length > 20
    · rw [if_pos (by simp [h2])]
      constructor
      · intro hf
        exact absurd hf (by simp)
      · rintro ⟨-, hle, -⟩
        omega
    · rw [if_neg (by simp [h1, h2])]
      rcases hp : pyFloatParse (clean_numeric_value stock.current) with - | v
      · simp
      · cases v with
        | finite q =>
          dsimp only
          by_cases hord : (pyLeConst (.finite q) 0 || pyGtConst (.finite q) 100000) = true
          · rw [if_pos hord]
            simp only [pyLeConst, pyGtConst, Bool.or_eq_true, decide_eq_true_eq] at hord
            constructor
            · intro hf
              exact absurd hf (by simp)
            · rintro ⟨-, -, ⟨q2, hq2, hpos, hle⟩ | hnan⟩
              · injection hq2 with hq3
                injection hq3 with hq4
                subst hq4
                rcases hord with hord | hord <;> omega
              · simp at hnan
          · rw [if_neg hord]
            simp only [pyLeConst, pyGtConst, Bool.or_eq_true, decide_eq_true_eq, not_or] at hord
            constructor
            · intro _
              refine ⟨h1, by omega, Or.inl ⟨q, rfl, ?_, ?_⟩⟩ <;> omega
            · intro _
              rfl
        | nan =>
          dsimp only
          rw [show (pyLeConst PyFloat.nan 0 || pyGtConst PyFloat.nan 100000) = false from rfl]
          rw [if_neg (by simp)]
          constructor
          · intro _
            exact ⟨h1, by omega, Or.inr rfl⟩
          · intro _
            rfl
        | inf =>
          dsimp only
          rw [show (pyLeConst PyFloat.inf 0 || pyGtConst PyFloat.inf 100000) = true from rfl]
          rw [if_pos rfl]
          constructor
          · intro hf
            exact absurd hf (by simp)
          · rintro ⟨-, -, ⟨q2, hq2, -, -⟩ | hnan⟩
            · simp at hq2
            · simp at hnan
        | ninf =>
          dsimp only
          rw [show (pyLeConst PyFloat.ninf 0 || pyGtConst PyFloat.ninf 100000) = true from rfl]
          rw [if_pos rfl]
          constructor
          · intro hf
            exact absurd hf (by simp)
          · rintro ⟨-, -, ⟨q2, hq2, -, -⟩ | hnan⟩
            · simp at hq2
            · simp at hnan

theorem validate_stock_data_spec_witness :
    validate_stock_data ⟨"ABC", "", "", "0", "0", "0", "0", "150.25", "0", "0", "0"⟩ = true :=
  validate_stock_data_spec.2.2

theorem intField_of_zero (s : String) (hz : clean_numeric_value s = "0") :
    intField s = some 0 := by
  unfold intField
  split
  · rfl
  · next hne => exact absurd hz hne

theorem intField_of_finite (s : String) (q : DecVal) (hne : clean_numeric_value s ≠ "0")
    (hp : pyFloatParse (clean_numeric_value s) = some (PyFloat.finite q)) :
    intField s = some (q.num.tdiv (q.den : Int)) := by
  unfold intField
  split
  · next heq => exact absurd heq hne
  · rw [hp]

theorem buildRow_volume (ts : Nat) (r : RawRecord) (row : StoredRow)
    (h : buildRow ts r = some row) : intField r.volume = some row.volume := by
  simp only [buildRow, Option.bind_eq_some, Option.map_eq_some'] at h
  obtain ⟨a, ha, b, hb, c, hc, d, hd, e, he, f, hf, g, hg, v, hv, hrow⟩ := h
  subst hrow
  exact hv

/-- C9 counterexample: a record with raw volume -5 passes validation and
    is persisted with the stored volume -5, which is negative. -/
theorem negative_volume_persisted_counterexample :
    (save_to_postgresql ⟨true, true, true⟩ [] 7
      [⟨"ABC", "Tech", "KSE100", "10", "10", "10", "10", "150.25", "0", "0", "-5"⟩]).2.map
        StoredRow.volume = [(-5 : Int)]
    ∧ (-5 : Int) < 0 :=
  ⟨by decide, by decide⟩

/-- C9 amended: the stored volume of a persisted row is an integer — the
    literal 0 when the raw volume text is unparsable (or otherwise cleans
    to the zero string), and the truncation toward zero of the parsed
    cleaned value otherwise — but it is not always non-negative, per the
    counterexample. -/
theorem volume_stored_spec (ts : Nat) (r : RawRecord) (row : StoredRow)
    (h : buildRow ts r = some row) :
    (pyFloatParse (String.mk (negAdjust (pyCleanChain r.volume))) = none → row.volume = 0)
    ∧ (clean_numeric_value r.volume = "0" → row.volume = 0)
    ∧ (∀ q : DecVal, clean_numeric_value r.volume ≠ "0" →
        pyFloatParse (clean_numeric_value r.volume) = some (PyFloat.finite q) →
        row.volume = q.num.tdiv (q.den : Int)) := by
  have hv := buildRow_volume ts r row h
  refine ⟨?_, ?_, ?_⟩
  · intro hparse
    have hz := clean_eq_zero_of_parse_none r.volume hparse
    exact (Option.some.inj ((intField_of_zero r.volume hz).symm.trans hv)).symm
  · intro hz
    exact (Option.some.inj ((intField_of_zero r.volume hz).symm.trans hv)).symm
  · intro q hne hp
    exact (Option.some.inj ((intField_of_finite r.volume q hne hp).symm.trans hv)).symm

theorem volume_stored_spec_witness :
    buildRow 0 ⟨"ABC", "", "", "1", "1", "1", "1", "150.25", "0", "0", "xx"⟩
      = some ⟨0, "ABC", "", "", .finite ⟨10, 10⟩, .finite ⟨10, 10⟩, .finite ⟨10, 10⟩,
          .finite ⟨10, 10⟩, .finite ⟨15025, 100⟩, .finite ⟨0, 10⟩, .finite ⟨0, 10⟩, 0⟩
    ∧ (⟨0, "ABC", "", "", .finite ⟨10, 10⟩, .finite ⟨10, 10⟩, .finite ⟨10, 10⟩,
          .finite ⟨10, 10⟩, .finite ⟨15025, 100⟩, .finite ⟨0, 10⟩, .finite ⟨0, 10⟩, 0⟩ :
            StoredRow).volume = 0 :=
  ⟨by decide,
   (volume_stored_spec 0 ⟨"ABC", "", "", "1", "1", "1", "1", "150.25", "0", "0", "xx"⟩
      ⟨0, "ABC", "", "", .finite ⟨10, 10⟩, .finite ⟨10, 10⟩, .finite ⟨10, 10⟩,
        .finite ⟨10, 10⟩, .finite ⟨15025, 100⟩, .finite ⟨0, 10⟩, .finite ⟨0, 10⟩, 0⟩
      (by decide)).2.1 (by decide)⟩

theorem hasKey_append (a b : List StoredRow) (row : StoredRow) :
    hasKey (a ++ b) row = (hasKey a row || hasKey b row) := by
  simp [hasKey, List.any_append]

theorem insertLoop_suffix (ts : Nat) (db : List StoredRow) (rs : List RawRecord) :
    ∀ pend, ∃ extra, insertLoop ts db pend rs = pend ++ extra := by
  induction rs with
  | nil =>
    intro pend
    exact ⟨[], (List.append_nil pend).symm⟩
  | cons x xs ih =>
    intro pend
    simp only [insertLoop]
    split
    · cases hbx : buildRow ts x with
      | some rowx =>
        dsimp only
        unfold insertStep
        split
        · exact ih pend
        · obtain ⟨e, he⟩ := ih (pend ++ [rowx])
          exact ⟨[rowx] ++ e, by rw [he, List.append_assoc]⟩
      | none =>
        dsimp only
        exact ih pend
    · exact ih pend

theorem hasKey_insertLoop_mono (ts : Nat) (db pend : List StoredRow) (rs : List RawRecord)
    (row : StoredRow) (h : hasKey (db ++ pend) row = true) :
    hasKey (db ++ insertLoop ts db pend rs) row = true := by
  obtain ⟨e, he⟩ := insertLoop_suffix ts db rs pend
  rw [he, ← List.append_assoc, hasKey_append, h]
  rfl

theorem hasKey_self_append (db pend : List StoredRow) (row : StoredRow) :
    hasKey (db ++ (pend ++ [row])) row = true := by
  simp [hasKey, List.any_append]

theorem key_present_after (ts : Nat) (db : List StoredRow) (rs : List RawRecord) :
    ∀ pend (r : RawRecord) (row : StoredRow), r ∈ rs → validate_stock_data r = true →
      buildRow ts r = some row →
      hasKey (db ++ insertLoop ts db pend rs) row = true := by
  induction rs with
  | nil =>
    intro pend r row hr
    simp at hr
  | cons x xs ih =>
    intro pend r row hr hv hb
    simp only [insertLoop]
    rcases List.mem_cons.mp hr with rfl | hr2
    · rw [if_pos hv]
      simp only [hb]
      apply hasKey_insertLoop_mono
      unfold insertStep
      split
      · next hk => exact hk
      · exact hasKey_self_append db pend row
    · split
      · cases hbx : buildRow ts x with
        | some rowx =>
          dsimp only
          exact ih _ r row hr2 hv hb
        | none =>
          dsimp only
          exact ih _ r row hr2 hv hb
      · exact ih _ r row hr2 hv hb

theorem insertLoop_nil_of_present (ts : Nat) (db1 : List StoredRow) (rs : List RawRecord)
    (h : ∀ r row, r ∈ rs → validate_stock_data r = true → buildRow ts r = some row →
      hasKey db1 row = true) :
    insertLoop ts db1 [] rs = [] := by
  induction rs with
  | nil => rfl
  | cons x xs ih =>
    simp only [insertLoop]
    split
    · next hvx =>
      cases hbx : buildRow ts x with
      | some rowx =>
        dsimp only
        have hk : hasKey (db1 ++ []) rowx = true := by
          rw [List.append_nil]
          exact h x rowx (List.mem_cons_self x xs) hvx hbx
        unfold insertStep
        rw [if_pos hk]
        exact ih (fun r row hr => h r row (List.mem_cons_of_mem x hr))
      | none =>
        dsimp only
        exact ih (fun r row hr => h r row (List.mem_cons_of_mem x hr))
    · exact ih (fun r row hr => h r row (List.mem_cons_of_mem x hr))

/-- C1: with a healthy database, running save_to_postgresql a second time
    with the same run timestamp and the same records returns the same
    result and leaves the committed rows exactly as after the first call:
    every conflicting key is silently ignored, nothing is duplicated,
    overwritten, or turned into an error. -/
theorem upsert_idempotent (env : PgEnv) (db : List StoredRow) (ts : Nat)
    (records : List RawRecord) (hc : env.connectOk = true) (hk : env.commitOk = true)
    (hs : env.summaryOk = true) :
    save_to_postgresql env (save_to_postgresql env db ts records).2 ts records
      = save_to_postgresql env db ts records := by
  obtain ⟨c, k, s⟩ := env
  dsimp only at hc hk hs
  subst hc
  subst hk
  subst hs
  by_cases hrec : records.isEmpty
  · simp [save_to_postgresql, hrec]
  · have hfirst : save_to_postgresql ⟨true, true, true⟩ db ts records
        = (true, db ++ insertLoop ts db [] records) := by
      simp [save_to_postgresql, hrec]
    rw [hfirst]
    have hnil : insertLoop ts (db ++ insertLoop ts db [] records) [] records = [] := by
      apply insertLoop_nil_of_present
      intro r row hr hv hb
      exact key_present_after ts db records [] r row hr hv hb
    simp [save_to_postgresql, hrec, hnil]

theorem upsert_idempotent_witness :
    (⟨true, true, true⟩ : PgEnv).connectOk = true
    ∧ save_to_postgresql ⟨true, true, true⟩
        (save_to_postgresql ⟨true, true, true⟩ [] 0
          [⟨"ABC", "", "", "1", "1", "1", "1", "150.25", "0", "0", "5"⟩]).2 0
        [⟨"ABC", "", "", "1", "1", "1", "1", "150.25", "0", "0", "5"⟩]
      = save_to_postgresql ⟨true, true, true⟩ [] 0
          [⟨"ABC", "", "", "1", "1", "1", "1", "150.25", "0", "0", "5"⟩] :=
  ⟨rfl, upsert_idempotent ⟨true, true, true⟩ [] 0
    [⟨"ABC", "", "", "1", "1", "1", "1", "150.25", "0", "0", "5"⟩] rfl rfl rfl⟩

theorem isDig_digitChar (r : Nat) : isDig (digitChar r) = true := by
  unfold digitChar
  repeat' split
  all_goals decide

theorem natDigitsGo_digit : ∀ (fuel n : Nat) (acc : List Char),
    (∀ c ∈ acc, isDig c = true) → ∀ c ∈ natDigitsGo fuel n acc, isDig c = true := by
  intro fuel
  induction fuel with
  | zero =>
    intro n acc hacc c hc
    exact hacc c hc
  | succ fuel ih =>
    intro n acc hacc c hc
    simp only [natDigitsGo] at hc
    split at hc
    · rcases List.mem_cons.mp hc with rfl | hc2
      · exact isDig_digitChar _
      · exact hacc c hc2
    · refine ih (n / 10) _ ?_ c hc
      intro c2 hc2
      rcases List.mem_cons.mp hc2 with rfl | hc3
      · exact isDig_digitChar _
      · exact hacc c2 hc3

theorem natDigits_digit (n : Nat) : ∀ c ∈ natDigits n, isDig c = true :=
  natDigitsGo_digit (n + 1) n [] (by simp)

theorem natDigitsGo_ne_nil : ∀ (fuel n : Nat) (acc : List Char), acc ≠ [] →
    natDigitsGo fuel n acc ≠ [] := by
  intro fuel
  induction fuel with
  | zero =>
    intro n acc hacc
    exact hacc
  | succ fuel ih =>
    intro n acc hacc
    simp only [natDigitsGo]
    split
    · simp
    · exact ih (n / 10) _ (by simp)

theorem natDigits_ne_nil (n : Nat) : natDigits n ≠ [] := by
  unfold natDigits
  simp only [natDigitsGo]
  split
  · simp
  · exact natDigitsGo_ne_nil n (n / 10) _ (by simp)

theorem mem_of_mem_dropWhile (p : Char → Bool) (l : List Char) (c : Char)
    (h : c ∈ l.dropWhile p) : c ∈ l := by
  induction l with
  | nil => simp at h
  | cons x xs ih =>
    rw [List.dropWhile_cons] at h
    split at h
    · exact List.mem_cons_of_mem x (ih h)
    · exact h

theorem fracPad_digit (k r : Nat) : ∀ c ∈ fracPad k r, isDig c = true := by
  intro c hc
  unfold fracPad at hc
  split at hc
  · simp at hc
    subst hc
    decide
  · dsimp only at hc
    split at hc
    · simp at hc
      subst hc
      decide
    · have hc2 := List.mem_reverse.mp hc
      have hc3 := mem_of_mem_dropWhile _ _ _ hc2
      have hc4 := List.mem_reverse.mp hc3
      rcases List.mem_append.mp hc4 with hc5 | hc5
      · have := List.eq_of_mem_replicate hc5
        subst this
        decide
      · exact natDigits_digit r c hc5

theorem fracPad_ne_nil (k r : Nat) : fracPad k r ≠ [] := by
  unfold fracPad
  split
  · simp
  · dsimp only
    split
    · simp
    · next hne =>
      intro hnil
      exact hne (by rw [hnil]; rfl)

theorem ratRenderParts_spec (q : DecVal) :
    (ratRenderParts q).1 ≠ [] ∧ (∀ c ∈ (ratRenderParts q).1, isDig c = true)
    ∧ (ratRenderParts q).2 ≠ [] ∧ (∀ c ∈ (ratRenderParts q).2, isDig c = true) := by
  unfold ratRenderParts
  cases hp : pow10Exp q.den with
  | some k =>
    dsimp only
    exact ⟨natDigits_ne_nil _, fun c hc => natDigits_digit _ c hc,
      fracPad_ne_nil k _, fun c hc => fracPad_digit k _ c hc⟩
  | none =>
    dsimp only
    refine ⟨natDigits_ne_nil _, fun c hc => natDigits_digit _ c hc, by simp, ?_⟩
    intro c hc
    simp at hc
    subst hc
    decide

theorem isPyWs_of_isDig (c : Char) (hd : isDig c = true) : isPyWs c = false := by
  have h1 : c ≠ ' ' := fun h => by subst h; exact absurd hd (by decide)
  have h2 : c ≠ '\t' := fun h => by subst h; exact absurd hd (by decide)
  have h3 : c ≠ '\n' := fun h => by subst h; exact absurd hd (by decide)
  have h4 : c ≠ '\r' := fun h => by subst h; exact absurd hd (by decide)
  have h5 : c ≠ Char.ofNat 11 := fun h => by subst h; exact absurd hd (by decide)
  have h6 : c ≠ Char.ofNat 12 := fun h => by subst h; exact absurd hd (by decide)
  simp [isPyWs, h1, h2, h3, h4, h5, h6]

theorem isDig_ne_chars (d : Char) (hd : isDig d = true) : d ≠ '+' ∧ d ≠ '-' ∧ d ≠ '_' := by
  refine ⟨?_, ?_, ?_⟩ <;> intro h <;> subst h <;> exact absurd hd (by decide)

theorem lcChar_digit (c : Char) (hd : isDig c = true) : lcChar c = c := by
  simp only [isDig, decide_eq_true_eq] at hd
  unfold lcChar
  rw [if_neg]
  omega

theorem dropWhile_noop (p : Char → Bool) (l : List Char) (h : ∀ c ∈ l, p c = false) :
    l.dropWhile p = l := by
  cases l with
  | nil => rfl
  | cons x xs =>
    rw [List.dropWhile_cons, if_neg (by simp [h x (List.mem_cons_self x xs)])]

theorem stripWs_noop (l : List Char) (h : ∀ c ∈ l, isPyWs c = false) : stripWs l = l := by
  unfold stripWs
  rw [dropWhile_noop _ _ h]
  rw [dropWhile_noop _ _ (fun c hc => h c (List.mem_reverse.mp hc))]
  exact List.reverse_reverse l

theorem digSpanCont_cons_dig (c : Char) (rest : List Char) (h : isDig c = true) :
    digSpanCont (c :: rest) = (c :: (digSpanCont rest).1, (digSpanCont rest).2) := by
  rw [digSpanCont.eq_def]
  dsimp only
  rw [if_pos h]

theorem digSpanCont_cons_other (c : Char) (rest : List Char) (h1 : isDig c = false)
    (h2 : c ≠ '_') : digSpanCont (c :: rest) = ([], c :: rest) := by
  rw [digSpanCont.eq_def]
  dsimp only
  rw [if_neg (by simp [h1]), if_neg h2]

theorem digSpanCont_exact : ∀ (ds rest : List Char), (∀ c ∈ ds, isDig c = true) →
    (rest = [] ∨ ∃ c0 t0, rest = c0 :: t0 ∧ isDig c0 = false ∧ c0 ≠ '_') →
    digSpanCont (ds ++ rest) = (ds, rest) := by
  intro ds
  induction ds with
  | nil =>
    intro rest hds hrest
    rcases hrest with rfl | ⟨c0, t0, rfl, hdig, hne⟩
    · rfl
    · rw [List.nil_append, digSpanCont_cons_other c0 t0 hdig hne]
  | cons d t ih =>
    intro rest hds hrest
    have hd : isDig d = true := hds d (List.mem_cons_self d t)
    rw [List.cons_append, digSpanCont_cons_dig d (t ++ rest) hd,
      ih rest (fun c hc => hds c (List.mem_cons_of_mem d hc)) hrest]

theorem takeDigitPart_exact (ds rest : List Char) (hne : ds ≠ [])
    (hds : ∀ c ∈ ds, isDig c = true)
    (hrest : rest = [] ∨ ∃ c0 t0, rest = c0 :: t0 ∧ isDig c0 = false ∧ c0 ≠ '_') :
    takeDigitPart (ds ++ rest) = some (ds, rest) := by
  obtain ⟨d, t, rfl⟩ := List.exists_cons_of_ne_nil hne
  have hd : isDig d = true := hds d (List.mem_cons_self d t)
  simp only [List.cons_append, takeDigitPart]
  rw [if_pos hd]
  rw [digSpanCont_exact t rest (fun c hc => hds c (List.mem_cons_of_mem d hc)) hrest]

theorem parseDecCore_render (ds1 ds2 : List Char) (h1 : ds1 ≠ []) (h2 : ds2 ≠ [])
    (hd1 : ∀ c ∈ ds1, isDig c = true) (hd2 : ∀ c ∈ ds2, isDig c = true) :
    parseDecCore (ds1 ++ '.' :: ds2) = some (ratOfParts ds1 ds2 0) := by
  have ht1 : takeDigitPart (ds1 ++ '.' :: ds2) = some (ds1, '.' :: ds2) :=
    takeDigitPart_exact ds1 ('.' :: ds2) h1 hd1 (Or.inr ⟨'.', ds2, rfl, by decide, by decide⟩)
  have ht2 : takeDigitPart ds2 = some (ds2, []) := by
    have h3 := takeDigitPart_exact ds2 [] h2 hd2 (Or.inl rfl)
    rwa [List.append_nil] at h3
  simp only [parseDecCore, ht1, ht2]
  rfl

theorem map_lc_ne_word (d : Char) (t : List Char) (hd : isDig d = true) :
    (d :: t).map lcChar ≠ "inf".toList
    ∧ (d :: t).map lcChar ≠ "infinity".toList
    ∧ (d :: t).map lcChar ≠ "nan".toList := by
  have hlc : lcChar d = d := lcChar_digit d hd
  refine ⟨?_, ?_, ?_⟩ <;> intro h
  · rw [show "inf".toList = ['i', 'n', 'f'] from rfl, List.map_cons] at h
    injection h with h1 h2
    rw [hlc] at h1
    subst h1
    exact absurd hd (by decide)
  · rw [show "infinity".toList = ['i', 'n', 'f', 'i', 'n', 'i', 't', 'y'] from rfl,
      List.map_cons] at h
    injection h with h1 h2
    rw [hlc] at h1
    subst h1
    exact absurd hd (by decide)
  · rw [show "nan".toList = ['n', 'a', 'n'] from rfl, List.map_cons] at h
    injection h with h1 h2
    rw [hlc] at h1
    subst h1
    exact absurd hd (by decide)

theorem pyParseUnsigned_render_isSome (ds1 ds2 : List Char) (neg : Bool) (h1 : ds1 ≠ [])
    (h2 : ds2 ≠ []) (hd1 : ∀ c ∈ ds1, isDig c = true) (hd2 : ∀ c ∈ ds2, isDig c = true) :
    (pyParseUnsigned (ds1 ++ '.' :: ds2) neg).isSome = true := by
  obtain ⟨d, t, rfl⟩ := List.exists_cons_of_ne_nil h1
  have hd : isDig d = true := hd1 d (List.mem_cons_self d t)
  obtain ⟨hni, hnif, hnn⟩ := map_lc_ne_word d (t ++ '.' :: ds2) hd
  simp only [pyParseUnsigned]
  rw [if_neg (by
    simp only [List.cons_append, Bool.or_eq_true, decide_eq_true_eq]
    rintro (h | h)
    exacts [hni h, hnif h])]
  rw [if_neg (by rw [List.cons_append]; exact hnn)]
  rw [parseDecCore_render (d :: t) ds2 (by simp) h2 hd1 hd2]
  rfl

theorem render_finite_parses (q : DecVal) :
    (pyFloatParse (pyFloatStr (PyFloat.finite q))).isSome = true := by
  obtain ⟨hp1ne, hp1d, hp2ne, hp2d⟩ := ratRenderParts_spec q
  have hnws : ∀ c ∈ ratRender q, isPyWs c = false := by
    intro c hc
    unfold ratRender at hc
    rcases List.mem_append.mp hc with hc1 | hc2
    · rcases List.mem_append.mp hc1 with hc3 | hc4
      · split at hc3
        · simp at hc3
          subst hc3
          decide
        · simp at hc3
      · exact isPyWs_of_isDig c (hp1d c hc4)
    · rcases List.mem_cons.mp hc2 with rfl | hc5
      · decide
      · exact isPyWs_of_isDig c (hp2d c hc5)
  simp only [pyFloatStr, pyFloatParse]
  rw [show (String.mk (ratRender q)).toList = ratRender q from rfl]
  rw [stripWs_noop (ratRender q) hnws]
  by_cases hneg : q.num < 0
  · have hr : ratRender q = '-' :: ((ratRenderParts q).1 ++ '.' :: (ratRenderParts q).2) := by
      unfold ratRender
      rw [if_pos hneg]
      simp
    rw [hr]
    dsimp only
    rw [if_neg (by decide : ¬('-' = '+')), if_pos rfl]
    exact pyParseUnsigned_render_isSome _ _ true hp1ne hp2ne hp1d hp2d
  · have hr : ratRender q = (ratRenderParts q).1 ++ '.' :: (ratRenderParts q).2 := by
      unfold ratRender
      rw [if_neg hneg]
      rfl
    obtain ⟨d, t, hdt⟩ := List.exists_cons_of_ne_nil hp1ne
    have hd : isDig d = true := hp1d d (by rw [hdt]; exact List.mem_cons_self d t)
    obtain ⟨hnp, hnm, -⟩ := isDig_ne_chars d hd
    rw [hr, hdt, List.cons_append]
    dsimp only
    rw [if_neg hnp, if_neg hnm]
    have h9 := pyParseUnsigned_render_isSome (d :: t) (ratRenderParts q).2 false (by simp)
      hp2ne (hdt ▸ hp1d) hp2d
    rw [List.cons_append] at h9
    exact h9

/-- C10 counterexample: the input nan cleans to nan (float() parses it to
    NaN, str() gives it back), the record passes validation, yet building
    its row tuple raises in int(float(nan)), so the per-row error branch
    in save_to_postgresql is reachable through numeric parsing alone. -/
theorem clean_nan_reaches_row_error_counterexample :
    clean_numeric_value "nan" = "nan"
    ∧ pyFloatParse "nan" = some PyFloat.nan
    ∧ validate_stock_data ⟨"ABC", "", "", "1", "1", "1", "1", "150.25", "0", "0", "nan"⟩ = true
    ∧ buildRow 0 ⟨"ABC", "", "", "1", "1", "1", "1", "150.25", "0", "0", "nan"⟩ = none := by
  refine ⟨by decide, by decide, by decide, by decide⟩

/-- C10 amended: the output of clean_numeric_value is always parseable as
    a float (it is the string 0 or the rendering of a parsed float), so
    float(clean_numeric_value(...)) never raises; but the parsed value can
    be NaN or infinite, and int() of such a value raises, so the per-row
    error branch of save_to_postgresql remains reachable (counterexample
    above). -/
theorem clean_output_parseable (s : String) :
    (pyFloatParse (clean_numeric_value s)).isSome = true := by
  simp only [clean_numeric_value]
  split
  · decide
  · split
    · decide
    · cases hp : pyFloatParse (String.mk (negAdjust (pyCleanChain s))) with
      | none =>
        simp only [hp]
        decide
      | some v =>
        simp only [hp]
        cases v with
        | finite q => exact render_finite_parses q
        | nan => decide
        | inf => decide
        | ninf => decide
